import Mathlib

/-!
Verification of the TagTime log analyzer (`script/pytagtime.py`) against its
natural-language specification.

The development shallowly embeds the data model and the operations of
`TagTimeLog`: log-line tokenization (`re.split(r'\s+', ...)` and the trailing
bracket-annotation `re.sub`), timestamp parsing, the multitag policies, the
Gaussian smoothing weight vector, event generation with weekday exclusion
(`_parse_file`), the observation table and its range trim (`__init__`),
tag ranking (`top_n_tags`), the day-of-the-week aggregation
(`day_of_the_week_sums`), and the mutation behaviour of the view methods on
`self.D`.  Machine floats are modeled by exact rationals (and by real numbers
where the code applies `exp`), and the random sources (`np.random.uniform`,
the obfuscation pseudonyms) are modeled as injected deterministic sequences.
-/

namespace PyTagTime

/-- Python regex class `\s` over the characters that occur in log lines:
space, tab, newline, carriage return, vertical tab, form feed. -/
def isPyWS (c : Char) : Bool :=
  c = ' ' || c = '\t' || c = '\n' || c = '\r' || c = '\x0b' || c = '\x0c'

/-- Accumulator pass splitting a character list into its maximal runs of
non-whitespace characters (the tokens separated by `\s+`). -/
def tokAux : Option (List Char) → List Char → List (List Char)
  | none, [] => []
  | some cur, [] => [cur.reverse]
  | none, c :: cs => if isPyWS c then tokAux none cs else tokAux (some [c]) cs
  | some cur, c :: cs =>
      if isPyWS c then cur.reverse :: tokAux none cs else tokAux (some (c :: cur)) cs

/-- `re.split(r'\s+', s)`: the maximal non-whitespace runs of `s`, with an
empty leading field when `s` starts with whitespace, an empty trailing field
when `s` ends with whitespace, and `[""]` for the empty string. -/
def reSplitWS (s : String) : List String :=
  match s.toList with
  | [] => [""]
  | c :: cs =>
      (if isPyWS c then [""] else []) ++
        (tokAux none (c :: cs)).map (fun t => String.mk t) ++
        (if isPyWS ((c :: cs).getLast (List.cons_ne_nil c cs)) then [""] else [])

/-- Drop trailing Python whitespace from a character list. -/
def rstripChars (cs : List Char) : List Char :=
  (cs.reverse.dropWhile isPyWS).reverse

/-- `re.sub(r'\s*\[.*?\]\s*$', '', line)` specialised to single log lines
(no interior newline): when the line, after discarding trailing whitespace,
ends with `]` and contains a `[`, the match starts at the whitespace run just
before the first `[` and everything from there on is removed; otherwise the
line is returned unchanged. -/
def stripBracketSuffix (s : String) : String :=
  let t := rstripChars s.toList
  if t.getLast? = some ']' ∧ '[' ∈ t then
    String.mk (rstripChars (t.takeWhile (fun c => c ≠ '[')))
  else s

/-- Value of a digit run, `none` when empty or containing a non-digit. -/
def digitsToNat (cs : List Char) : Option ℕ :=
  match cs with
  | [] => none
  | _ => if cs.all Char.isDigit then
           some (cs.foldl (fun n c => 10 * n + (c.toNat - 48)) 0)
         else none

/-- Python `int(s)` restricted to the shapes a log field can have: an optional
sign followed by one or more decimal digits; every other string raises
`ValueError`, modeled as `none`. -/
def pyInt (s : String) : Option ℤ :=
  match s.toList with
  | '-' :: cs => (digitsToNat cs).map (fun n => -(n : ℤ))
  | '+' :: cs => (digitsToNat cs).map (fun n => (n : ℤ))
  | cs => (digitsToNat cs).map (fun n => (n : ℤ))

/-- The exception raised by `_parse_file` on a bad line:
`int(fields[0])` raises `ValueError` whose payload shows the offending token.
The type has no field for a line number, and the code has no switch choosing
between aborting and skipping. -/
inductive LineError where
  | valueError (tok : String)
deriving DecidableEq, Repr

/-- The three `--multitag` policies. -/
inductive Multitag where
  | first
  | split
  | double
deriving DecidableEq, Repr

/-- The configuration consumed by `TagTimeLog` (the fields `_parse_file`
reads; plotting options are presentation-layer and not modeled). -/
structure Config where
  interval : ℚ
  multitag : Multitag
  skipweekdays : List ℤ
  skiptags : List String
  smooth : Bool
  sigma : ℚ
deriving DecidableEq, Repr

/-- First whitespace-separated field of a line after annotation stripping
(`fields[0]`; `re.split` never returns an empty list). -/
def headField (line : String) : String :=
  (reSplitWS (stripBracketSuffix line)).headD ""

/-- Parse one log line as `_parse_file` does: strip the trailing bracket
annotation, split on whitespace, read `fields[0]` as a Unix timestamp via
`int`, keep `fields[1:]` as the tag occurrences. -/
def parseSampleLine (line : String) : Except LineError (ℤ × List String) :=
  match pyInt (headField line) with
  | none => .error (.valueError (headField line))
  | some ts => .ok (ts, (reSplitWS (stripBracketSuffix line)).tail)

/-- Parse a whole log.  The `for line in handle` loop reads the lines in
order and aborts at the first raising line: the exception propagates and no
later line is read. -/
def parseLogSamples : List String → Except LineError (List (ℤ × List String))
  | [] => .ok []
  | line :: ls =>
      match parseSampleLine line with
      | .error e => .error e
      | .ok s => (parseLogSamples ls).map (fun ss => s :: ss)

/-- Epoch-day index of a time in seconds (the calendar day used by
`resample('D')`; the clock is modeled as UTC). -/
def dayOf (t : ℚ) : ℤ := ⌊t / 86400⌋

/-- `datetime.weekday()` of an epoch day: Monday = 0; epoch day 0
(1970-01-01) was a Thursday, weekday 3. -/
def wdOfDay (d : ℤ) : ℤ := (d + 3) % 7

/-- Weekday of a time given in seconds. -/
def weekdayAt (t : ℚ) : ℤ := wdOfDay (dayOf t)

/-- Length of `np.arange(a, b, step)` for positive `step`. -/
def arangeLen (a b step : ℚ) : ℕ := ⌈(b - a) / step⌉₊

/-- `np.arange(a, b, step)`: the values `a + i * step` for `i < ⌈(b-a)/step⌉`
(the interval is half-open: `b` itself is never produced). -/
def arange (a b step : ℚ) : List ℚ :=
  (List.range (arangeLen a b step)).map (fun i => a + i * step)

/-- The smoothing offset list of `_parse_file`:
`np.arange(-2σ, 2σ, (4σ+1)/15)` with the elementwise uniform noise
(`np.random.uniform(-0.1, 0.1, ...)`, modeled as the injected sequence
`jitter`) added.  The grid and the noise are fused into one `range`-map so
that membership is indexed directly; `smoothOffsets_eq_arange` relates this to
the plain `arange` grid. -/
def smoothOffsets (sigma : ℚ) (jitter : ℕ → ℚ) : List ℚ :=
  (List.range (arangeLen (-(2 * sigma)) (2 * sigma) ((4 * sigma + 1) / 15))).map
    (fun i => (-(2 * sigma) + i * ((4 * sigma + 1) / 15)) + jitter i)

/-- `offsetlist` of `_parse_file`: the jittered grid when smoothing is on,
the single offset `0.` otherwise. -/
def offsetList (sigma : ℚ) (smooth : Bool) (jitter : ℕ → ℚ) : List ℚ :=
  if smooth then smoothOffsets sigma jitter else [0]

/-- `np.exp(- offsetlist ** 2 / self.sigma ** 2)`: the unnormalised Gaussian
weights. -/
noncomputable def rawWeights (sigma : ℚ) (offs : List ℚ) : List ℝ :=
  offs.map (fun o : ℚ => Real.exp (-((o : ℝ)) ^ 2 / ((sigma : ℝ)) ^ 2))

/-- The `(weight, offset)` pairs `_parse_file` spreads every tag occurrence
over: the raw Gaussian weights renormalised by their sum
(`weights /= weights.sum()`), zipped back with the offsets
(`zip(weights, offsetlist)`). -/
noncomputable def pingWeights (sigma : ℚ) (smooth : Bool) (jitter : ℕ → ℚ) :
    List (ℝ × ℚ) :=
  ((rawWeights sigma (offsetList sigma smooth jitter)).map
      (fun w => w / (rawWeights sigma (offsetList sigma smooth jitter)).sum)).zip
    (offsetList sigma smooth jitter)

/-- The events `_parse_file` appends for one parsed sample `(ts, rawTags)`:
occurrences are filtered against `skiptags`; under multitag `first` only the
first occurrence is kept; each occurrence carries duration `interval`
(divided by the number of surviving occurrences under `split`); every
`(weight, offset)` pair yields an event at the shifted time with value
`weight * duration`, unless the shifted time falls on a skipped weekday, in
which case the event is dropped (its mass is lost). -/
noncomputable def sampleEvents (cfg : Config) (jitter : ℕ → ℚ) (ts : ℤ)
    (rawTags : List String) : List (String × ℚ × ℝ) :=
  let tags := rawTags.filter (fun t => decide (t ∉ cfg.skiptags))
  let tags := if cfg.multitag = .first then tags.take 1 else tags
  tags.flatMap (fun t =>
    let duration : ℚ :=
      if cfg.multitag = .split then cfg.interval / tags.length else cfg.interval
    (pingWeights cfg.sigma cfg.smooth jitter).filterMap (fun wo =>
      let dtx : ℚ := (ts : ℚ) + wo.2 * cfg.interval * 3600
      if weekdayAt dtx ∈ cfg.skipweekdays then none
      else some (t, dtx, wo.1 * (duration : ℝ))))

/-- Sum of the values of all events of a sample. -/
def eventSum (evs : List (String × ℚ × ℝ)) : ℝ :=
  (evs.map (fun e => e.2.2)).sum

/-- Total value accumulated for one tag over a list of events (the column
total of the observation table for that tag). -/
def tagTotal (tag : String) (evs : List (String × ℚ × ℝ)) : ℝ :=
  ((evs.filter (fun e => decide (e.1 = tag))).map (fun e => e.2.2)).sum

/-- The configuration of the spec's three-line scenario: interval 1,
multitag `split`, smoothing disabled, no excluded tags or weekdays (the
sigma value is irrelevant with smoothing off; 1/4 is the CLI default). -/
def scenarioCfg : Config := ⟨1, .split, [], [], false, 1/4⟩

/-- The observation table `self.D`: one column per tag in first-appearance
order, each an ordered list of (time in seconds, value) pairs.  The value
type is generic, as the dynamically typed table holds arbitrary numerics. -/
abbrev Table (α : Type) : Type := List (String × List (ℚ × α))

/-- Append one event to the table, as `D[t].append(dtx); V[t].append(...)`
does on the `defaultdict`: extend the tag's column when present, otherwise
create it at the end. -/
def addEvent {α : Type} (tbl : Table α) (e : String × ℚ × α) : Table α :=
  match tbl with
  | [] => [(e.1, [(e.2.1, e.2.2)])]
  | c :: rest =>
      if c.1 = e.1 then (c.1, c.2 ++ [(e.2.1, e.2.2)]) :: rest
      else c :: addEvent rest e

/-- Build the observation table from an event list. -/
def toTable {α : Type} (evs : List (String × ℚ × α)) : Table α :=
  evs.foldl addEvent []

/-- All timestamps occurring in the table (the members of its index). -/
def tableTimes {α : Type} (tbl : Table α) : List ℚ :=
  tbl.flatMap (fun c => c.2.map Prod.fst)

/-- Minimum of the table's index (`self.D.index.min()`); 0 on an empty
index, where the code's value is NaT and never compared against. -/
def idxMin {α : Type} (tbl : Table α) : ℚ :=
  match tableTimes tbl with
  | [] => 0
  | t :: ts => ts.foldl min t

/-- Maximum of the table's index (`self.D.index.max()`). -/
def idxMax {α : Type} (tbl : Table α) : ℚ :=
  match tableTimes tbl with
  | [] => 0
  | t :: ts => ts.foldl max t

/-- `self.D.ix[a:b]`: label slicing on the time index keeps exactly the rows
with `a ≤ t ≤ b` — both endpoints inclusive. -/
def trimTable {α : Type} (a b : ℚ) (tbl : Table α) : Table α :=
  tbl.map (fun c => (c.1, c.2.filter (fun p => decide (a ≤ p.1 ∧ p.1 ≤ b))))

/-- Plain sum of a column's values.  `top_n_tags` ranks by
`self.D.resample('D', how='sum').sum()[k]`, and summing the per-day sums of a
column telescopes to the plain sum of its values (pandas `sum` skips the NaN
fill of empty days). -/
def colTotal {α : Type} [AddCommMonoid α] (s : List (ℚ × α)) : α :=
  (s.map Prod.snd).sum

/-- The ranking series `D[k]` used by `top_n_tags`: total of column `k`. -/
def lookupTotal {α : Type} [AddCommMonoid α] (tbl : Table α) (k : String) : α :=
  ((tbl.map (fun c => (c.1, colTotal c.2))).lookup k).getD 0

/-- `sorted(D.keys(), key=lambda x: D[x], reverse=True)`: the column names
sorted descending by total.  Python's `sorted` is stable, and a stable sort
is extensionally unique, so core `mergeSort` computes the same list. -/
def rankedKeys {α : Type} [AddCommMonoid α] [LinearOrder α] (tbl : Table α) :
    List String :=
  (tbl.map Prod.fst).mergeSort (fun a b => decide (lookupTotal tbl b ≤ lookupTotal tbl a))

/-- `TagTimeLog.top_n_tags(n, extra_tags)`: keys ranked descending by total,
truncated to the first `n`; when `extra_tags` is not `None`, each extra is
appended unless already present. -/
def top_n_tags {α : Type} [AddCommMonoid α] [LinearOrder α] (tbl : Table α)
    (n : ℕ) (extra : Option (List String)) : List String :=
  let keys := (rankedKeys tbl).take n
  match extra with
  | none => keys
  | some ex => ex.foldl (fun ks x => if x ∈ ks then ks else ks ++ [x]) keys

/-- `TagTimeLog._obfuscate` applied to a frame: when obfuscation is on, every
column label except `'other'` is renamed in place to a generated 4-character
pseudonym; `random.choice` is modeled as the injected per-column `gen`. -/
def obfuscateTable {α : Type} (obf : Bool) (gen : ℕ → String) (tbl : Table α) :
    Table α :=
  if obf then tbl.mapIdx (fun i c => if c.1 = "other" then c else (gen i, c.2))
  else tbl

/-- State of `self.D` after `TagTimeLog.pie(tags, ...)` returns or raises.
From the source: with a tag list, `D = self.D[tags]` is a fresh frame, so all
later writes (`D['other'] = ...`, `_obfuscate`, `resample`) leave `self.D`
untouched.  With `tags=None`, `D` *is* `self.D`; then `other=True` evaluates
`[t for t in self.D.keys() if t not in tags]` with `tags=None`, which raises
`TypeError` before anything is written; with `other=False`, `_obfuscate(D)`
runs while `D` still aliases `self.D` (the `resample` reassignment comes
later in `pie`), renaming the source table's columns in place. -/
def pieSelfDAfter {α : Type} (tbl : Table α) (tags : Option (List String))
    (other obf : Bool) (gen : ℕ → String) : Table α :=
  match tags with
  | some _ => tbl
  | none => if other then tbl else obfuscateTable obf gen tbl

/-- State of `self.D` after `TagTimeLog.trend`.  With a tag list `D` is a
fresh frame; with `tags=None` and `other=True` the `not in None` membership
test raises before the `D['other']` write; and `_obfuscate` only runs after
`D = D.resample(...)` has rebound `D` to a new frame.  So `self.D` is never
written. -/
def trendSelfDAfter {α : Type} (tbl : Table α) (tags : Option (List String))
    (other obf : Bool) (gen : ℕ → String) : Table α := tbl

/-- State of `self.D` after `TagTimeLog.hour_sums`.  With `tags=None` (and
`top_n=None`) the call `self.top_n_tags(1000)` raises `TypeError` (missing
argument) before `D` is even formed; otherwise `D = self.D[tags]` is a fresh
frame and all writes land on it or on later derived frames. -/
def hourSumsSelfDAfter {α : Type} (tbl : Table α) (tags : Option (List String))
    (other obf : Bool) (gen : ℕ → String) : Table α := tbl

/-- State of `self.D` after `TagTimeLog.hour_of_the_week`; same argument as
for `hour_sums`. -/
def hourOfWeekSelfDAfter {α : Type} (tbl : Table α) (tags : Option (List String))
    (other obf : Bool) (gen : ℕ → String) : Table α := tbl

/-- State of `self.D` after `TagTimeLog.day_of_the_week_sums`; same argument
as for `hour_sums`. -/
def dowSelfDAfter {α : Type} (tbl : Table α) (tags : Option (List String))
    (other obf : Bool) (gen : ℕ → String) : Table α := tbl

/-- `D.resample('D', how='sum').fillna(0)` at one day `d` for one column:
the sum of the column's values on that calendar day (0 when none). -/
def colDaySum (s : List (ℚ × ℝ)) (d : ℤ) : ℝ :=
  ((s.filter (fun p => decide (dayOf p.1 = d))).map Prod.snd).sum

/-- Row total of the daily-resampled table at day `d` (`D.sum(axis=1)`). -/
def tblDayTotal (tbl : Table ℝ) (d : ℤ) : ℝ :=
  (tbl.map (fun c => colDaySum c.2 d)).sum

/-- The days of the resampled index: the full closed range from the first to
the last day of the table's index (`resample` materialises every day in
between; `fillna(0)` fills the empty ones). -/
def tblDays (tbl : Table ℝ) : List ℤ :=
  (List.range ((dayOf (idxMax tbl) - dayOf (idxMin tbl)).toNat + 1)).map
    (fun i => dayOf (idxMin tbl) + i)

open Classical in
/-- The days of weekday `w` that contribute to the weekday mean.  A day with
row total 0 turns into an all-NaN row under `D / D.sum(axis=1)`, and pandas
`groupby(...).mean()` skips NaN entries, so exactly the days with nonzero
total take part. -/
noncomputable def validDaysOfWeek (tbl : Table ℝ) (w : ℤ) : List ℤ :=
  ((tblDays tbl).filter (fun d => decide (wdOfDay d = w))).filter
    (fun d => decide (tblDayTotal tbl d ≠ 0))

/-- Arithmetic mean of a list (sum over length). -/
noncomputable def listMean (xs : List ℝ) : ℝ := xs.sum / xs.length

/-- The weekday-`w` entry of `D.groupby(D.index.weekday).mean()` for one
column after the per-day normalisation `D / D.sum(axis=1)`. -/
noncomputable def dowShareMean (tbl : Table ℝ) (w : ℤ) (s : List (ℚ × ℝ)) : ℝ :=
  listMean ((validDaysOfWeek tbl w).map (fun d => colDaySum s d / tblDayTotal tbl d))

/-- `V = D.sum(axis=1)` of the weekday-mean table at weekday `w`. -/
noncomputable def dowRowTotal (tbl : Table ℝ) (w : ℤ) : ℝ :=
  (tbl.map (fun c => dowShareMean tbl w c.2)).sum

/-- The column of a tag (`D[k]`). -/
def colOf (tbl : Table ℝ) (tag : String) : List (ℚ × ℝ) :=
  ((tbl.find? (fun c => decide (c.1 = tag))).map Prod.snd).getD []

/-- The final value `day_of_the_week_sums` plots for `tag` at weekday `w`:
the weekday mean share rescaled by `24 / V` (`D[k] = D[k] * 24 / V`). -/
noncomputable def dowHours (tbl : Table ℝ) (w : ℤ) (tag : String) : ℝ :=
  dowShareMean tbl w (colOf tbl tag) * 24 / dowRowTotal tbl w

/-! ### Helper lemmas -/

theorem length_smoothOffsets (sigma : ℚ) (jitter : ℕ → ℚ) :
    (smoothOffsets sigma jitter).length =
      arangeLen (-(2 * sigma)) (2 * sigma) ((4 * sigma + 1) / 15) := by
  simp [smoothOffsets]

theorem smoothOffsets_ne_nil (sigma : ℚ) (h : 0 < sigma) (jitter : ℕ → ℚ) :
    smoothOffsets sigma jitter ≠ [] := by
  have hlen : 0 < (smoothOffsets sigma jitter).length := by
    rw [length_smoothOffsets]
    unfold arangeLen
    rw [Nat.ceil_pos]
    have h1 : (0 : ℚ) < 2 * sigma - -(2 * sigma) := by linarith
    have h2 : (0 : ℚ) < (4 * sigma + 1) / 15 := by positivity
    positivity
  exact List.ne_nil_of_length_pos hlen

theorem offsetList_ne_nil (sigma : ℚ) (h : 0 < sigma) (sm : Bool) (jitter : ℕ → ℚ) :
    offsetList sigma sm jitter ≠ [] := by
  cases sm with
  | false => simp [offsetList]
  | true => simpa [offsetList] using smoothOffsets_ne_nil sigma h jitter

theorem rawWeights_sum_pos (sigma : ℚ) (offs : List ℚ) (h : offs ≠ []) :
    0 < (rawWeights sigma offs).sum := by
  apply List.sum_pos
  · intro x hx
    unfold rawWeights at hx
    obtain ⟨o, -, rfl⟩ := List.mem_map.mp hx
    exact Real.exp_pos _
  · unfold rawWeights
    exact fun hc => h (List.map_eq_nil_iff.mp hc)

/-- With smoothing disabled the weight vector degenerates to a single exact
weight 1 at offset 0. -/
theorem pingWeights_not_smooth (sigma : ℚ) (jitter : ℕ → ℚ) :
    pingWeights sigma false jitter = [((1 : ℝ), (0 : ℚ))] := by
  unfold pingWeights offsetList rawWeights
  simp [Real.exp_zero]

theorem sum_map_div (l : List ℝ) (S : ℝ) : (l.map (fun w => w / S)).sum = l.sum / S := by
  simpa [div_eq_mul_inv] using List.sum_map_mul_right l (fun w => w) S⁻¹

/-! ### Claim theorems -/

/-- C3: for every `sigma > 0`, whether smoothing is enabled or disabled, the
weight vector computed at parse time (one Gaussian weight per offset,
renormalised) sums to exactly 1 in the real model. -/
theorem pingWeights_sum_one (sigma : ℚ) (hs : 0 < sigma) (sm : Bool) (jitter : ℕ → ℚ) :
    ((pingWeights sigma sm jitter).map Prod.fst).sum = 1 := by
  have hne := offsetList_ne_nil sigma hs sm jitter
  have hpos := rawWeights_sum_pos sigma _ hne
  unfold pingWeights
  rw [List.map_fst_zip]
  · rw [sum_map_div]
    exact div_self hpos.ne'
  · simp [rawWeights]

/-- Witness for `pingWeights_sum_one` at `sigma = 1` with smoothing on and
zero jitter. -/
theorem pingWeights_sum_one_witness :
    (0 : ℚ) < 1 ∧ ((pingWeights 1 true (fun _ => 0)).map Prod.fst).sum = 1 :=
  ⟨by norm_num, pingWeights_sum_one 1 (by norm_num) true (fun _ => 0)⟩

/-- C9 counterexample: at `sigma = 1` with zero jitter the generated offset
list is `np.arange(-2, 2, 1/3)`, which contains `-2` but not `2` (the upper
endpoint of `arange` is excluded), so the list is not symmetric about 0. -/
theorem smoothOffsets_not_symmetric :
    ¬ ∀ o ∈ smoothOffsets 1 (fun _ => 0), -o ∈ smoothOffsets 1 (fun _ => 0) := by
  have h : smoothOffsets 1 (fun _ => 0) =
      [-2, -5/3, -4/3, -1, -2/3, -1/3, 0, 1/3, 2/3, 1, 4/3, 5/3] := by
    unfold smoothOffsets arangeLen
    rw [show ⌈((2:ℚ) * 1 - -(2 * 1)) / ((4 * 1 + 1) / 15)⌉₊ = 12 from by
      norm_num [Nat.ceil_eq_iff]]
    simp [List.range_succ]
    norm_num
  intro hall
  have h2 := hall (-2) (by rw [h]; norm_num)
  rw [h] at h2
  norm_num at h2

/-- C9 (amended): for every `sigma > 0`, with the uniform noise bounded by
0.1 as in the code, the offset list is nonempty and every generated offset
lies in `[-2σ - 0.1, 2σ + 0.1)`: it spans roughly `±2σ`, starting at `-2σ`
but stopping short of `+2σ` (so it is not exactly symmetric about zero). -/
theorem smoothOffsets_span (sigma : ℚ) (hs : 0 < sigma) (jitter : ℕ → ℚ)
    (hj : ∀ i, |jitter i| ≤ 1 / 10) :
    smoothOffsets sigma jitter ≠ [] ∧
      ∀ o ∈ smoothOffsets sigma jitter,
        -(2 * sigma) - 1 / 10 ≤ o ∧ o < 2 * sigma + 1 / 10 := by
  refine ⟨smoothOffsets_ne_nil sigma hs jitter, ?_⟩
  intro o ho
  unfold smoothOffsets at ho
  obtain ⟨i, hi, rfl⟩ := List.mem_map.mp ho
  rw [List.mem_range] at hi
  unfold arangeLen at hi
  have hstep : (0 : ℚ) < (4 * sigma + 1) / 15 := by positivity
  have hji := abs_le.mp (hj i)
  constructor
  · have hnn : (0 : ℚ) ≤ (i : ℚ) * ((4 * sigma + 1) / 15) := by positivity
    linarith [hji.1]
  · have hlt : (i : ℚ) < (2 * sigma - -(2 * sigma)) / ((4 * sigma + 1) / 15) :=
      Nat.lt_ceil.mp hi
    have h4 : (i : ℚ) * ((4 * sigma + 1) / 15) < 2 * sigma - -(2 * sigma) := by
      calc (i : ℚ) * ((4 * sigma + 1) / 15)
          < ((2 * sigma - -(2 * sigma)) / ((4 * sigma + 1) / 15)) * ((4 * sigma + 1) / 15) :=
            mul_lt_mul_of_pos_right hlt hstep
        _ = 2 * sigma - -(2 * sigma) := div_mul_cancel₀ _ hstep.ne'
    linarith [hji.2]

/-- Sum of the values of events generated one per list element with a fixed
value. -/
theorem eventSum_const_flatMap (l : List String) (x : ℚ) (v : ℝ) :
    eventSum (l.flatMap (fun t => [(t, x, v)])) = l.length * v := by
  induction l with
  | nil => simp [eventSum]
  | cons a l ih =>
      simp only [List.flatMap_cons, eventSum, List.map_append, List.sum_append,
        List.map_cons, List.sum_cons, List.map_nil, List.sum_nil, List.length_cons] at *
      rw [ih]
      push_cast
      ring

/-- Splitting the tag total at the head event. -/
theorem tagTotal_cons (tag : String) (e : String × ℚ × ℝ) (evs : List (String × ℚ × ℝ)) :
    tagTotal tag (e :: evs) = (if e.1 = tag then e.2.2 else 0) + tagTotal tag evs := by
  unfold tagTotal
  rw [List.filter_cons]
  by_cases h : e.1 = tag
  · simp [h]
  · simp [h]

/-- Total for one tag of events generated one per list element with a fixed
value: each occurrence of the tag contributes once. -/
theorem tagTotal_const_flatMap (l : List String) (tag : String) (x : ℚ) (v : ℝ) :
    tagTotal tag (l.flatMap (fun t => [(t, x, v)])) = (l.count tag : ℝ) * v := by
  induction l with
  | nil => simp [tagTotal]
  | cons a l ih =>
      rw [List.flatMap_cons, List.singleton_append, tagTotal_cons, ih, List.count_cons]
      by_cases h : a = tag
      · simp only [h, if_pos rfl, beq_self_eq_true, if_true]
        push_cast
        ring
      · have hb : (tag == a) = false := by
          simpa using fun hc => h hc.symm
        simp [h, hb]

/-- Witness for `smoothOffsets_span` at `sigma = 1`, zero jitter. -/
theorem smoothOffsets_span_witness :
    ((0 : ℚ) < 1 ∧ ∀ i : ℕ, |(0 : ℚ)| ≤ 1 / 10) ∧
      (smoothOffsets 1 (fun _ => 0) ≠ [] ∧
        ∀ o ∈ smoothOffsets 1 (fun _ => 0),
          -(2 * 1) - 1 / 10 ≤ o ∧ o < 2 * 1 + 1 / 10) :=
  ⟨⟨by norm_num, fun _ => by norm_num⟩,
    smoothOffsets_span 1 (by norm_num) (fun _ => 0) (fun _ => by norm_num)⟩

/-- C1 (amended): for every parsed sample whose tag list is non-empty after
tag-exclusion filtering, when smoothing is disabled, the multitag mode is
`first` or `split`, and the sample's weekday is not excluded, the sum of the
event values emitted for the sample is exactly the configured interval. -/
theorem sampleEvents_sum_interval (cfg : Config) (jitter : ℕ → ℚ) (ts : ℤ)
    (rawTags : List String)
    (hsm : cfg.smooth = false)
    (hmt : cfg.multitag = .first ∨ cfg.multitag = .split)
    (hne : rawTags.filter (fun t => decide (t ∉ cfg.skiptags)) ≠ [])
    (hwd : weekdayAt (ts : ℚ) ∉ cfg.skipweekdays) :
    eventSum (sampleEvents cfg jitter ts rawTags) = (cfg.interval : ℝ) := by
  unfold sampleEvents
  rw [hsm, pingWeights_not_smooth]
  rcases hmt with hmt | hmt
  · obtain ⟨a, l, hl⟩ := List.exists_cons_of_ne_nil hne
    rw [hmt, hl]
    simp [eventSum, hwd]
  · rw [hmt]
    simp only [show (Multitag.split = Multitag.first) = False from by simp, if_false,
      if_pos rfl]
    have hlen : ((rawTags.filter (fun t => decide (t ∉ cfg.skiptags))).length : ℝ) ≠ 0 := by
      simpa using fun hc => hne (List.length_eq_zero.mp hc)
    simp only [List.filterMap_cons, List.filterMap_nil, zero_mul, add_zero, if_neg hwd]
    rw [eventSum_const_flatMap]
    push_cast
    field_simp
    simp only [decide_not] at hlen
    exact mul_div_cancel_left₀ _ hlen

/-- C1 counterexample: with weekday 3 (Thursday) excluded, the sample at
timestamp 0 (epoch, a Thursday) with one non-excluded tag and smoothing off
under multitag `first` emits no events, so the emitted duration sum is 0
rather than the interval 3/4 — the claim as stated ignores the weekday
exclusion. -/
theorem sampleEvents_sum_ctrex :
    (Config.mk (3/4) .first [3] [] false 1).smooth = false ∧
      (Config.mk (3/4) .first [3] [] false 1).multitag = .first ∧
      ["a"].filter (fun t => decide (t ∉ (Config.mk (3/4) .first [3] [] false 1).skiptags)) ≠ [] ∧
      eventSum (sampleEvents (Config.mk (3/4) .first [3] [] false 1) (fun _ => 0) 0 ["a"]) = 0 ∧
      ((0 : ℝ) ≠ ((Config.mk (3/4) .first [3] [] false 1).interval : ℝ)) := by
  refine ⟨rfl, rfl, by simp, ?_, by norm_num⟩
  unfold sampleEvents
  rw [pingWeights_not_smooth]
  have hwd : weekdayAt 0 = 3 := by
    unfold weekdayAt dayOf wdOfDay
    norm_num
  simp [eventSum, hwd]

/-- Witness for `sampleEvents_sum_interval`: interval 3/4, multitag `split`,
two tags, timestamp 0, nothing excluded. -/
theorem sampleEvents_sum_interval_witness :
    ((Config.mk (3/4) .split [] [] false 1).smooth = false ∧
      ((Config.mk (3/4) .split [] [] false 1).multitag = .first ∨
        (Config.mk (3/4) .split [] [] false 1).multitag = .split) ∧
      ["a", "b"].filter (fun t => decide (t ∉ (Config.mk (3/4) .split [] [] false 1).skiptags)) ≠ [] ∧
      weekdayAt ((0 : ℤ) : ℚ) ∉ (Config.mk (3/4) .split [] [] false 1).skipweekdays) ∧
      eventSum (sampleEvents (Config.mk (3/4) .split [] [] false 1) (fun _ => 0) 0 ["a", "b"]) =
        (((Config.mk (3/4) .split [] [] false 1).interval : ℚ) : ℝ) :=
  ⟨⟨rfl, Or.inr rfl, by simp, by simp⟩,
    sampleEvents_sum_interval _ (fun _ => 0) 0 ["a", "b"] rfl (Or.inr rfl) (by simp) (by simp)⟩

/-- C10: repeated tags on a line are processed per occurrence.  With
smoothing disabled and no weekday exclusion, a tag occurring `k` times among
the `n` surviving occurrences receives `k * (interval / n)` under multitag
`split` and `k * interval` under multitag `double`. -/
theorem tagTotal_per_occurrence (cfg : Config) (jitter : ℕ → ℚ) (ts : ℤ)
    (rawTags : List String) (tag : String)
    (hsm : cfg.smooth = false) (hwd : cfg.skipweekdays = []) :
    (cfg.multitag = .split →
      tagTotal tag (sampleEvents cfg jitter ts rawTags) =
        ((rawTags.filter (fun t => decide (t ∉ cfg.skiptags))).count tag : ℝ) *
          ((cfg.interval : ℝ) /
            ((rawTags.filter (fun t => decide (t ∉ cfg.skiptags))).length : ℝ))) ∧
    (cfg.multitag = .double →
      tagTotal tag (sampleEvents cfg jitter ts rawTags) =
        ((rawTags.filter (fun t => decide (t ∉ cfg.skiptags))).count tag : ℝ) *
          (cfg.interval : ℝ)) := by
  constructor
  · intro hmt
    unfold sampleEvents
    rw [hsm, pingWeights_not_smooth, hmt, hwd]
    simp only [show (Multitag.split = Multitag.first) = False from by simp, if_false,
      if_pos rfl, List.filterMap_cons, List.filterMap_nil, zero_mul, add_zero,
      List.not_mem_nil, if_neg (fun h => h)]
    rw [tagTotal_const_flatMap]
    push_cast
    ring
  · intro hmt
    unfold sampleEvents
    rw [hsm, pingWeights_not_smooth, hmt, hwd]
    simp only [show (Multitag.double = Multitag.first) = False from by simp,
      show (Multitag.double = Multitag.split) = False from by simp, if_false,
      List.filterMap_cons, List.filterMap_nil, zero_mul, add_zero,
      List.not_mem_nil, if_neg (fun h => h)]
    rw [tagTotal_const_flatMap]
    ring

/-- Witness for `tagTotal_per_occurrence`: line with occurrences
`a a b`, multitag `split`, interval 1: tag `a` receives `2 * (1/3)`. -/
theorem tagTotal_per_occurrence_witness :
    ((Config.mk 1 .split [] [] false 1).smooth = false ∧
      (Config.mk 1 .split [] [] false 1).skipweekdays = []) ∧
      tagTotal "a" (sampleEvents (Config.mk 1 .split [] [] false 1) (fun _ => 0) 0
          ["a", "a", "b"]) = (2 : ℝ) * ((1 : ℝ) / 3) := by
  refine ⟨⟨rfl, rfl⟩, ?_⟩
  have h := (tagTotal_per_occurrence (Config.mk 1 .split [] [] false 1) (fun _ => 0) 0
    ["a", "a", "b"] "a" rfl rfl).1 rfl
  rw [h]
  norm_num [List.count_cons, List.count_nil]
  rw [if_neg (show ¬("b" = "a") by decide)]
  norm_num

/-- A `foldl min` is a lower bound of its seed and of every element. -/
theorem foldl_min_le (ts : List ℚ) : ∀ a : ℚ,
    ts.foldl min a ≤ a ∧ ∀ x ∈ ts, ts.foldl min a ≤ x := by
  induction ts with
  | nil => intro a; simp
  | cons b ts ih =>
      intro a
      rw [List.foldl_cons]
      refine ⟨le_trans (ih (min a b)).1 (min_le_left a b), ?_⟩
      intro x hx
      rcases List.mem_cons.mp hx with rfl | hx
      · exact le_trans (ih (min a x)).1 (min_le_right a x)
      · exact (ih (min a b)).2 x hx

/-- A `foldl max` is an upper bound of its seed and of every element. -/
theorem le_foldl_max (ts : List ℚ) : ∀ a : ℚ,
    a ≤ ts.foldl max a ∧ ∀ x ∈ ts, x ≤ ts.foldl max a := by
  induction ts with
  | nil => intro a; simp
  | cons b ts ih =>
      intro a
      rw [List.foldl_cons]
      refine ⟨le_trans (le_max_left a b) (ih (max a b)).1, ?_⟩
      intro x hx
      rcases List.mem_cons.mp hx with rfl | hx
      · exact le_trans (le_max_right a x) (ih (max a x)).1
      · exact (ih (max a b)).2 x hx

/-- Every time in the table lies between `idxMin` and `idxMax`. -/
theorem idx_bounds {α : Type} (tbl : Table α) (x : ℚ) (hx : x ∈ tableTimes tbl) :
    idxMin tbl ≤ x ∧ x ≤ idxMax tbl := by
  unfold idxMin idxMax
  cases h : tableTimes tbl with
  | nil => rw [h] at hx; cases hx
  | cons t ts =>
      rw [h] at hx
      rcases List.mem_cons.mp hx with rfl | hx
      · exact ⟨(foldl_min_le ts x).1, (le_foldl_max ts x).1⟩
      · exact ⟨(foldl_min_le ts t).2 x hx, (le_foldl_max ts t).2 x hx⟩

/-- C6: trimming the observation table to the inclusive range from its own
minimum to its own maximum index keeps every row: no rows are dropped and
none are added. -/
theorem trimTable_roundtrip {α : Type} (tbl : Table α) :
    trimTable (idxMin tbl) (idxMax tbl) tbl = tbl := by
  unfold trimTable
  have hcols : ∀ c ∈ tbl, (c.1, c.2.filter
      (fun p => decide (idxMin tbl ≤ p.1 ∧ p.1 ≤ idxMax tbl))) = c := by
    intro c hc
    have hfil : c.2.filter (fun p => decide (idxMin tbl ≤ p.1 ∧ p.1 ≤ idxMax tbl)) = c.2 := by
      rw [List.filter_eq_self]
      intro p hp
      have hmem : p.1 ∈ tableTimes tbl :=
        List.mem_flatMap.mpr ⟨c, hc, List.mem_map.mpr ⟨p, hp, rfl⟩⟩
      have hb := idx_bounds tbl p.1 hmem
      exact decide_eq_true hb
    rw [hfil]
  calc tbl.map (fun c => (c.1, c.2.filter
          (fun p => decide (idxMin tbl ≤ p.1 ∧ p.1 ≤ idxMax tbl))))
      = tbl.map id := List.map_congr_left hcols
    _ = tbl := List.map_id tbl

/-- Tag totals add over event-list concatenation. -/
theorem tagTotal_append (tag : String) (l1 l2 : List (String × ℚ × ℝ)) :
    tagTotal tag (l1 ++ l2) = tagTotal tag l1 + tagTotal tag l2 := by
  unfold tagTotal
  rw [List.filter_append, List.map_append, List.sum_append]

/-- C2 counterexample: parsing the three-line log exactly as a file handle
delivers it (each line newline-terminated, no bracket annotations),
`re.split(r'\s+')` yields a trailing empty-string field on every line, which
survives as a tag occurrence and receives a `split` share; both visible tags
then total 5/6, so the claimed totals 1.5 for tagA and 1.0 for tagB are both
wrong on the code. -/
theorem threeLine_totals_ctrex :
    parseLogSamples ["0 tagA\n", "3600 tagB\n", "7200 tagA tagB\n"] =
      .ok [(0, ["tagA", ""]), (3600, ["tagB", ""]), (7200, ["tagA", "tagB", ""])] ∧
    tagTotal "tagA"
      (([((0 : ℤ), ["tagA", ""]), (3600, ["tagB", ""]),
          (7200, ["tagA", "tagB", ""])]).flatMap
        (fun s => sampleEvents scenarioCfg (fun _ => 0) s.1 s.2)) = 5 / 6 ∧
    tagTotal "tagB"
      (([((0 : ℤ), ["tagA", ""]), (3600, ["tagB", ""]),
          (7200, ["tagA", "tagB", ""])]).flatMap
        (fun s => sampleEvents scenarioCfg (fun _ => 0) s.1 s.2)) = 5 / 6 ∧
    ((5 / 6 : ℝ) ≠ 3 / 2) ∧ ((5 / 6 : ℝ) ≠ 1) := by
  refine ⟨rfl, ?_, ?_, by norm_num, by norm_num⟩ <;>
  · rw [List.flatMap_cons, List.flatMap_cons, List.flatMap_cons, List.flatMap_nil,
      List.append_nil]
    rw [tagTotal_append, tagTotal_append]
    rw [(tagTotal_per_occurrence scenarioCfg (fun _ => 0) 0 ["tagA", ""] _ rfl rfl).1 rfl,
      (tagTotal_per_occurrence scenarioCfg (fun _ => 0) 3600 ["tagB", ""] _ rfl rfl).1 rfl,
      (tagTotal_per_occurrence scenarioCfg (fun _ => 0) 7200 ["tagA", "tagB", ""] _ rfl
        rfl).1 rfl]
    norm_num [show List.filter (fun t => !decide (t ∈ scenarioCfg.skiptags))
        ["tagA", ""] = ["tagA", ""] from rfl,
      show List.filter (fun t => !decide (t ∈ scenarioCfg.skiptags))
        ["tagB", ""] = ["tagB", ""] from rfl,
      show List.filter (fun t => !decide (t ∈ scenarioCfg.skiptags))
        ["tagA", "tagB", ""] = ["tagA", "tagB", ""] from rfl,
      show List.count "tagA" ["tagA", ""] = 1 from rfl,
      show List.count "tagA" ["tagB", ""] = 0 from rfl,
      show List.count "tagA" ["tagA", "tagB", ""] = 1 from rfl,
      show List.count "tagB" ["tagA", ""] = 0 from rfl,
      show List.count "tagB" ["tagB", ""] = 1 from rfl,
      show List.count "tagB" ["tagA", "tagB", ""] = 1 from rfl,
      show scenarioCfg.interval = 1 from rfl]

/-- C2 (amended): with the three lines stripped of trailing whitespace (as
happens when each log line carries a bracket annotation, which the
`re.sub` removes together with the newline), the scenario parses to the
expected samples and the totals are 1.5 for tagA and 1.5 — not 1.0 — for
tagB: the single-tag line `t0+3600 tagB` already contributes the full
interval 1.0 to tagB, and the last line adds another 0.5. -/
theorem threeLine_totals :
    parseLogSamples ["0 tagA", "3600 tagB", "7200 tagA tagB"] =
      .ok [(0, ["tagA"]), (3600, ["tagB"]), (7200, ["tagA", "tagB"])] ∧
    tagTotal "tagA"
      (([((0 : ℤ), ["tagA"]), (3600, ["tagB"]), (7200, ["tagA", "tagB"])]).flatMap
        (fun s => sampleEvents scenarioCfg (fun _ => 0) s.1 s.2)) = 3 / 2 ∧
    tagTotal "tagB"
      (([((0 : ℤ), ["tagA"]), (3600, ["tagB"]), (7200, ["tagA", "tagB"])]).flatMap
        (fun s => sampleEvents scenarioCfg (fun _ => 0) s.1 s.2)) = 3 / 2 := by
  refine ⟨rfl, ?_, ?_⟩ <;>
  · rw [List.flatMap_cons, List.flatMap_cons, List.flatMap_cons, List.flatMap_nil,
      List.append_nil]
    rw [tagTotal_append, tagTotal_append]
    rw [(tagTotal_per_occurrence scenarioCfg (fun _ => 0) 0 ["tagA"] _ rfl rfl).1 rfl,
      (tagTotal_per_occurrence scenarioCfg (fun _ => 0) 3600 ["tagB"] _ rfl rfl).1 rfl,
      (tagTotal_per_occurrence scenarioCfg (fun _ => 0) 7200 ["tagA", "tagB"] _ rfl
        rfl).1 rfl]
    norm_num [show List.filter (fun t => !decide (t ∈ scenarioCfg.skiptags))
        ["tagA"] = ["tagA"] from rfl,
      show List.filter (fun t => !decide (t ∈ scenarioCfg.skiptags))
        ["tagB"] = ["tagB"] from rfl,
      show List.filter (fun t => !decide (t ∈ scenarioCfg.skiptags))
        ["tagA", "tagB"] = ["tagA", "tagB"] from rfl,
      show List.count "tagA" ["tagA"] = 1 from rfl,
      show List.count "tagA" ["tagB"] = 0 from rfl,
      show List.count "tagA" ["tagA", "tagB"] = 1 from rfl,
      show List.count "tagB" ["tagA"] = 0 from rfl,
      show List.count "tagB" ["tagB"] = 1 from rfl,
      show List.count "tagB" ["tagA", "tagB"] = 1 from rfl,
      show scenarioCfg.interval = 1 from rfl]

/-- C8 counterexample: a missing/non-numeric timestamp raises, but the error
is the bare `ValueError` of `int()` and carries no line number: the same log
line placed as line 1 and as line 2 of a log produces the *identical* error,
so the message cannot name the offending line number; nor does any
configuration field select a skip-and-warn policy (parsing always aborts). -/
theorem malformed_line_ctrex :
    parseLogSamples ["abc foo"] = .error (.valueError "abc") ∧
      parseLogSamples ["1 t", "abc foo"] = .error (.valueError "abc") :=
  ⟨rfl, rfl⟩

/-- C8 (amended): for every log in which the first malformed line has a
non-numeric (or missing) timestamp field, parsing aborts at that line with
the `ValueError` of `int()` carrying the offending token — independent of
the line's position, with no line number and no configurable policy. -/
theorem parseLogSamples_abort (pre : List String) (bad : String) (rest : List String)
    (hpre : ∀ l ∈ pre, ∃ s, parseSampleLine l = .ok s)
    (hbad : pyInt (headField bad) = none) :
    parseLogSamples (pre ++ bad :: rest) = .error (.valueError (headField bad)) := by
  have hb : parseSampleLine bad = .error (.valueError (headField bad)) := by
    unfold parseSampleLine
    rw [hbad]
  induction pre with
  | nil =>
      rw [List.nil_append]
      simp only [parseLogSamples, hb]
  | cons a pre ih =>
      obtain ⟨s, hs⟩ := hpre a (List.mem_cons_self a pre)
      have ih2 := ih (fun l hl => hpre l (List.mem_cons_of_mem a hl))
      rw [List.cons_append]
      simp only [parseLogSamples, hs, ih2]
      rfl

/-- Witness for `parseLogSamples_abort`: a good line, then `xx b`, then
another line; parsing aborts with `ValueError` on token `xx`. -/
theorem parseLogSamples_abort_witness :
    ((∀ l ∈ ["5 a"], ∃ s, parseSampleLine l = .ok s) ∧
      pyInt (headField "xx b") = none) ∧
      parseLogSamples (["5 a"] ++ "xx b" :: ["7 c"]) =
        .error (.valueError (headField "xx b")) :=
  ⟨⟨fun l hl => by rw [List.mem_singleton.mp hl]; exact ⟨(5, ["a"]), rfl⟩, by decide⟩,
    parseLogSamples_abort ["5 a"] "xx b" ["7 c"]
      (fun l hl => by rw [List.mem_singleton.mp hl]; exact ⟨(5, ["a"]), rfl⟩) (by decide)⟩

/-- Obfuscation only renames columns: the column value lists are unchanged
(in order and content). -/
theorem map_snd_obfuscate {α : Type} (gen : ℕ → String) (tbl : Table α) :
    (obfuscateTable true gen tbl).map Prod.snd = tbl.map Prod.snd := by
  unfold obfuscateTable
  rw [if_pos rfl, List.mapIdx_eq_enum_map, List.map_map]
  have hfun : (Prod.snd ∘ Function.uncurry fun (i : ℕ) (c : String × List (ℚ × α)) =>
      if c.1 = "other" then c else (gen i, c.2)) =
      (Prod.snd ∘ (Prod.snd : ℕ × (String × List (ℚ × α)) → String × List (ℚ × α))) := by
    funext p
    by_cases h : p.2.1 = "other" <;> simp [Function.uncurry, h]
  rw [hfun, ← List.map_map, List.enum_map_snd]

/-- C7 counterexample: `pie(tags=None, top_n=None, other=False)` with
obfuscation enabled calls `_obfuscate` while `D` still aliases `self.D`
(the `resample` rebinding happens only afterwards), renaming the source
table's columns in place: the column labels of `self.D` change. -/
theorem pie_obfuscate_mutates :
    pieSelfDAfter [("work", ([] : List (ℚ × ℕ)))] none false true (fun _ => "XKCD") ≠
      [("work", ([] : List (ℚ × ℕ)))] := by
  decide

/-- C7 (amended): no view call mutates `self.D` — `trend`, `hour_sums`,
`hour_of_the_week` and `day_of_the_week_sums` never (each either works on
the fresh frame `self.D[tags]`, raises before writing, or obfuscates a
rebound frame), and `pie` never when called with an explicit tag list or
with obfuscation off.  The single exception is `pie` with `tags=None` and
obfuscation on, which renames the columns of `self.D` in place; even then
the column values are preserved, only the labels change. -/
theorem views_preserve_selfD {α : Type} (tbl : Table α) (tags : Option (List String))
    (ts : List String) (other obf : Bool) (gen : ℕ → String) :
    trendSelfDAfter tbl tags other obf gen = tbl ∧
    hourSumsSelfDAfter tbl tags other obf gen = tbl ∧
    hourOfWeekSelfDAfter tbl tags other obf gen = tbl ∧
    dowSelfDAfter tbl tags other obf gen = tbl ∧
    pieSelfDAfter tbl (some ts) other obf gen = tbl ∧
    pieSelfDAfter tbl tags other false gen = tbl ∧
    (pieSelfDAfter tbl tags other obf gen).map Prod.snd = tbl.map Prod.snd := by
  refine ⟨rfl, rfl, rfl, rfl, rfl, ?_, ?_⟩
  · cases tags with
    | some _ => rfl
    | none => cases other <;> simp [pieSelfDAfter, obfuscateTable]
  · cases tags with
    | some _ => rfl
    | none =>
        cases other with
        | true => rfl
        | false =>
            cases obf with
            | false => simp [pieSelfDAfter, obfuscateTable]
            | true =>
                simp only [pieSelfDAfter, Bool.false_eq_true, if_false]
                exact map_snd_obfuscate gen tbl

/-- The `for x in extra_tags` append loop of `top_n_tags`: it appends, after
the ranked keys, a duplicate-free subsequence of the extras consisting of
those not already present. -/
theorem foldl_extras (ex : List String) : ∀ ks : List String,
    ∃ ep : List String,
      ex.foldl (fun ks x => if x ∈ ks then ks else ks ++ [x]) ks = ks ++ ep ∧
      ep.Sublist ex ∧ (∀ x ∈ ep, x ∉ ks) ∧ (ks.Nodup → (ks ++ ep).Nodup) := by
  induction ex with
  | nil =>
      intro ks
      exact ⟨[], by simp, List.nil_sublist [], by simp, by simp⟩
  | cons x ex ih =>
      intro ks
      by_cases hx : x ∈ ks
      · obtain ⟨ep, h1, h2, h3, h4⟩ := ih ks
        refine ⟨ep, ?_, h2.cons x, h3, h4⟩
        rw [List.foldl_cons, if_pos hx]
        exact h1
      · obtain ⟨ep, h1, h2, h3, h4⟩ := ih (ks ++ [x])
        refine ⟨x :: ep, ?_, h2.cons₂ x, ?_, ?_⟩
        · rw [List.foldl_cons, if_neg hx, h1, List.append_assoc]
          rfl
        · intro y hy
          rcases List.mem_cons.mp hy with rfl | hy
          · exact hx
          · exact fun hc => h3 y hy (List.mem_append_left _ hc)
        · intro hnod
          have hks : (ks ++ [x]).Nodup := by
            rw [List.nodup_append]
            refine ⟨hnod, List.nodup_singleton x, ?_⟩
            intro a ha hax
            rw [List.mem_singleton.mp hax] at ha
            exact hx ha
          have h5 := h4 hks
          rw [List.append_assoc] at h5
          simpa using h5

/-- The ranked key list is a permutation of the column names. -/
theorem rankedKeys_perm {α : Type} [AddCommMonoid α] [LinearOrder α] (tbl : Table α) :
    (rankedKeys tbl).Perm (tbl.map Prod.fst) :=
  List.mergeSort_perm (tbl.map Prod.fst) _

/-- The ranked key list is sorted descending by per-tag total. -/
theorem rankedKeys_sorted {α : Type} [AddCommMonoid α] [LinearOrder α] (tbl : Table α) :
    List.Pairwise (fun a b => lookupTotal tbl b ≤ lookupTotal tbl a) (rankedKeys tbl) := by
  have htrans : ∀ a b c : String,
      decide (lookupTotal tbl b ≤ lookupTotal tbl a) = true →
      decide (lookupTotal tbl c ≤ lookupTotal tbl b) = true →
      decide (lookupTotal tbl c ≤ lookupTotal tbl a) = true := by
    intro a b c hab hbc
    rw [decide_eq_true_eq] at *
    exact le_trans hbc hab
  have htotal : ∀ a b : String,
      (decide (lookupTotal tbl b ≤ lookupTotal tbl a) ||
        decide (lookupTotal tbl a ≤ lookupTotal tbl b)) = true := by
    intro a b
    rcases le_total (lookupTotal tbl b) (lookupTotal tbl a) with h | h <;> simp [h]
  have hs := @List.sorted_mergeSort String
    (fun a b => decide (lookupTotal tbl b ≤ lookupTotal tbl a)) htrans htotal
    (tbl.map Prod.fst)
  exact hs.imp (fun h => of_decide_eq_true h)

/-- C4: `top_n_tags(n, extra)` returns the keys ranked descending by
per-day-resampled total truncated to at most `n`, followed by the extras not
already present, as a subsequence of `extra` (their given order); the result
has no duplicates and length at most `n + len(extra)`. -/
theorem top_n_tags_spec {α : Type} [AddCommMonoid α] [LinearOrder α] (tbl : Table α)
    (n : ℕ) (extra : List String) (hkeys : (tbl.map Prod.fst).Nodup) :
    ∃ ep : List String,
      top_n_tags tbl n (some extra) = (rankedKeys tbl).take n ++ ep ∧
      ep.Sublist extra ∧
      (∀ x ∈ ep, x ∉ (rankedKeys tbl).take n) ∧
      (top_n_tags tbl n (some extra)).Nodup ∧
      (top_n_tags tbl n (some extra)).length ≤ n + extra.length ∧
      ((rankedKeys tbl).take n).length ≤ n ∧
      List.Pairwise (fun a b => lookupTotal tbl b ≤ lookupTotal tbl a)
        ((rankedKeys tbl).take n) := by
  obtain ⟨ep, h1, h2, h3, h4⟩ := foldl_extras extra ((rankedKeys tbl).take n)
  have heq : top_n_tags tbl n (some extra) =
      extra.foldl (fun ks x => if x ∈ ks then ks else ks ++ [x])
        ((rankedKeys tbl).take n) := rfl
  have hknodup : ((rankedKeys tbl).take n).Nodup :=
    List.Nodup.sublist (List.take_sublist n _) ((rankedKeys_perm tbl).symm.nodup hkeys)
  refine ⟨ep, by rw [heq, h1], h2, h3, ?_, ?_, List.length_take_le n _, ?_⟩
  · rw [heq, h1]
    exact h4 hknodup
  · rw [heq, h1, List.length_append]
    exact Nat.add_le_add (List.length_take_le n _) h2.length_le
  · exact List.Pairwise.sublist (List.take_sublist n _) (rankedKeys_sorted tbl)

/-- Witness for `top_n_tags_spec`: two columns with totals 3 and 5, `n = 1`,
extras `["a", "c"]`; the ranked prefix is `["b"]` and the extras append. -/
theorem top_n_tags_spec_witness :
    (([("a", [((0 : ℚ), (3 : ℚ))]), ("b", [((0 : ℚ), (5 : ℚ))])].map
        (Prod.fst (β := List (ℚ × ℚ)))).Nodup) ∧
      ∃ ep : List String,
        top_n_tags [("a", [((0 : ℚ), (3 : ℚ))]), ("b", [((0 : ℚ), (5 : ℚ))])] 1
            (some ["a", "c"]) =
          (rankedKeys [("a", [((0 : ℚ), (3 : ℚ))]), ("b", [((0 : ℚ), (5 : ℚ))])]).take 1
            ++ ep ∧
        ep.Sublist ["a", "c"] ∧
        (∀ x ∈ ep, x ∉
          (rankedKeys [("a", [((0 : ℚ), (3 : ℚ))]), ("b", [((0 : ℚ), (5 : ℚ))])]).take 1) ∧
        (top_n_tags [("a", [((0 : ℚ), (3 : ℚ))]), ("b", [((0 : ℚ), (5 : ℚ))])] 1
          (some ["a", "c"])).Nodup ∧
        (top_n_tags [("a", [((0 : ℚ), (3 : ℚ))]), ("b", [((0 : ℚ), (5 : ℚ))])] 1
          (some ["a", "c"])).length ≤ 1 + (["a", "c"] : List String).length ∧
        ((rankedKeys [("a", [((0 : ℚ), (3 : ℚ))]), ("b", [((0 : ℚ), (5 : ℚ))])]).take 1).length ≤ 1 ∧
        List.Pairwise (fun a b =>
          lookupTotal [("a", [((0 : ℚ), (3 : ℚ))]), ("b", [((0 : ℚ), (5 : ℚ))])] b ≤
            lookupTotal [("a", [((0 : ℚ), (3 : ℚ))]), ("b", [((0 : ℚ), (5 : ℚ))])] a)
          ((rankedKeys [("a", [((0 : ℚ), (3 : ℚ))]), ("b", [((0 : ℚ), (5 : ℚ))])]).take 1) :=
  ⟨by simp, top_n_tags_spec [("a", [((0 : ℚ), (3 : ℚ))]), ("b", [((0 : ℚ), (5 : ℚ))])] 1
    ["a", "c"] (by simp)⟩

/-- A `foldl min` is attained by its seed or an element. -/
theorem foldl_min_mem (ts : List ℚ) : ∀ a : ℚ, ts.foldl min a ∈ a :: ts := by
  induction ts with
  | nil => intro a; simp
  | cons b ts ih =>
      intro a
      rw [List.foldl_cons]
      rcases List.mem_cons.mp (ih (min a b)) with h | h
      · rcases min_choice a b with hc | hc <;> rw [h, hc]
        · exact List.mem_cons_self _ _
        · exact List.mem_cons_of_mem _ (List.mem_cons_self _ _)
      · exact List.mem_cons_of_mem _ (List.mem_cons_of_mem _ h)

theorem foldl_max_mem (ts : List ℚ) : ∀ a : ℚ, ts.foldl max a ∈ a :: ts := by
  induction ts with
  | nil => intro a; simp
  | cons b ts ih =>
      intro a
      rw [List.foldl_cons]
      rcases List.mem_cons.mp (ih (max a b)) with h | h
      · rcases max_choice a b with hc | hc <;> rw [h, hc]
        · exact List.mem_cons_self _ _
        · exact List.mem_cons_of_mem _ (List.mem_cons_self _ _)
      · exact List.mem_cons_of_mem _ (List.mem_cons_of_mem _ h)

theorem idxMin_mem {α : Type} (tbl : Table α) (h : tableTimes tbl ≠ []) :
    idxMin tbl ∈ tableTimes tbl := by
  unfold idxMin
  cases hc : tableTimes tbl with
  | nil => exact absurd hc h
  | cons t ts =>
      exact foldl_min_mem ts t

theorem idxMax_mem {α : Type} (tbl : Table α) (h : tableTimes tbl ≠ []) :
    idxMax tbl ∈ tableTimes tbl := by
  unfold idxMax
  cases hc : tableTimes tbl with
  | nil => exact absurd hc h
  | cons t ts =>
      exact foldl_max_mem ts t

/-- A single-tag sample with smoothing off and nothing excluded yields one
event at its own timestamp carrying the full interval, whatever the multitag
mode. -/
theorem sampleEvents_single (cfg : Config) (jitter : ℕ → ℚ) (ts : ℤ) (tag : String)
    (hsm : cfg.smooth = false) (hwd : cfg.skipweekdays = []) (hsk : cfg.skiptags = []) :
    sampleEvents cfg jitter ts [tag] = [(tag, (ts : ℚ), (cfg.interval : ℝ))] := by
  unfold sampleEvents
  rw [hsm, pingWeights_not_smooth, hwd, hsk]
  cases h : cfg.multitag <;> simp [h]

/-- Folding events of one tag into a one-column table appends them in
order. -/
theorem foldl_addEvent_same (tag : String) :
    ∀ (evs : List (String × ℚ × ℝ)) (acc : List (ℚ × ℝ)), (∀ e ∈ evs, e.1 = tag) →
      evs.foldl addEvent [(tag, acc)] =
        [(tag, acc ++ evs.map (fun e => (e.2.1, e.2.2)))] := by
  intro evs
  induction evs with
  | nil => intro acc _; simp
  | cons e evs ih =>
      intro acc hall
      have he : e.1 = tag := hall e (List.mem_cons_self e evs)
      rw [List.foldl_cons]
      have hstep : addEvent [(tag, acc)] e = [(tag, acc ++ [(e.2.1, e.2.2)])] := by
        unfold addEvent
        rw [if_pos he.symm]
      rw [hstep, ih (acc ++ [(e.2.1, e.2.2)]) (fun x hx => hall x (List.mem_cons_of_mem e hx)),
        List.append_assoc]
      rfl

/-- A nonempty event list all of one tag builds a one-column table. -/
theorem toTable_const_tag (tag : String) (e : String × ℚ × ℝ) (evs : List (String × ℚ × ℝ))
    (hall : ∀ x ∈ e :: evs, x.1 = tag) :
    toTable (e :: evs) = [(tag, (e :: evs).map (fun x => (x.2.1, x.2.2)))] := by
  have he : e.1 = tag := hall e (List.mem_cons_self e evs)
  unfold toTable
  rw [List.foldl_cons]
  have hstep : addEvent [] e = [(tag, [(e.2.1, e.2.2)])] := by
    unfold addEvent
    rw [he]
  rw [hstep, foldl_addEvent_same tag evs _ (fun x hx => hall x (List.mem_cons_of_mem e hx))]
  simp

/-- Floor of a quotient of naturals over `ℚ` is natural division. -/
theorem int_floor_nat_div (i m : ℕ) (hm : 0 < m) :
    ⌊(i : ℚ) / (m : ℚ)⌋ = (i / m : ℕ) := by
  rw [Int.floor_eq_iff]
  constructor
  · rw [le_div_iff (by positivity)]
    exact_mod_cast Nat.div_mul_le_self i m
  · rw [div_lt_iff (by positivity)]
    have h1 : i < (i / m + 1) * m := (Nat.div_lt_iff_lt_mul hm).mp (Nat.lt_succ_self _)
    exact_mod_cast h1

/-- How many `i < n` satisfy `i / m = j`. -/
theorem length_filter_range_div (m j : ℕ) (hm : 0 < m) : ∀ n : ℕ,
    ((List.range n).filter (fun i => decide (i / m = j))).length =
      min n ((j + 1) * m) - min n (j * m) := by
  intro n
  induction n with
  | zero => simp
  | succ k ih =>
      rw [List.range_succ, List.filter_append, List.length_append, ih]
      have hab : (j + 1) * m = j * m + m := by ring
      by_cases h : k / m = j
      · have hb1 : j * m ≤ k := by
          rw [← h]; exact Nat.div_mul_le_self k m
        have hb2 : k < (j + 1) * m := by
          rw [← h]; exact (Nat.div_lt_iff_lt_mul hm).mp (Nat.lt_succ_self _)
        have hfil : List.filter (fun i => decide (i / m = j)) [k] = [k] := by
          simp [h]
        rw [hfil, List.length_singleton, hab] at *
        omega
      · have hb : k < j * m ∨ j * m + m ≤ k := by
          rcases Nat.lt_or_ge k (j * m) with h1 | h1
          · exact Or.inl h1
          · right
            have hj : j ≤ k / m := (Nat.le_div_iff_mul_le hm).mpr h1
            have hj2 : j < k / m := lt_of_le_of_ne hj (fun hc => h hc.symm)
            have := (Nat.le_div_iff_mul_le hm).mp hj2
            calc j * m + m = (j + 1) * m := by ring
              _ ≤ k := this
        have hfil : List.filter (fun i => decide (i / m = j)) [k] = [] := by
          simp [h]
        rw [hfil]
        simp only [List.length_nil]
        rw [hab]
        omega

/-- The mean of a nonempty list of ones is 1. -/
theorem listMean_ones (xs : List ℝ) (h1 : ∀ x ∈ xs, x = 1) (hne : xs ≠ []) :
    listMean xs = 1 := by
  have hsum : ∀ ys : List ℝ, (∀ x ∈ ys, x = 1) → ys.sum = ys.length := by
    intro ys
    induction ys with
    | nil => intro h0; simp
    | cons a l ih =>
        intro hall
        rw [List.sum_cons, ih (fun x hx => hall x (List.mem_cons_of_mem a hx)),
          hall a (List.mem_cons_self a l), List.length_cons]
        push_cast
        ring
  unfold listMean
  rw [hsum xs h1]
  have hlen : (xs.length : ℝ) ≠ 0 := by
    simpa using fun hc => hne (List.length_eq_zero.mp hc)
  exact div_self hlen

/-- C5: for a synthetic log of uniform single-tag pings — `m` pings per day,
`g = 86400/m` seconds apart, starting at midnight of day `d0`, for exactly
one full week — with no exclusions and smoothing off, the day-of-the-week
aggregation (daily sums, per-day normalisation, weekday mean, rescale by
`24 / rowTotal`) assigns every weekday bucket exactly 24 hours. -/
theorem dow_uniform_week (d0 : ℤ) (m g : ℕ) (tag : String) (mt : Multitag) (sigma : ℚ)
    (hm : 0 < m) (hg : m * g = 86400) (w : ℤ) (hw0 : 0 ≤ w) (hw7 : w < 7) :
    dowHours (toTable ((List.range (7 * m)).flatMap (fun i =>
        sampleEvents (Config.mk (24 / (m : ℚ)) mt [] [] false sigma) (fun _ => 0)
          (86400 * d0 + (i : ℤ) * (g : ℤ)) [tag]))) w tag = 24 := by
  have hgpos : 0 < g := by
    rcases Nat.eq_zero_or_pos g with h | h
    · rw [h, Nat.mul_zero] at hg; cases hg
    · exact h
  set cfg : Config := Config.mk (24 / (m : ℚ)) mt [] [] false sigma with hcfg
  set N := 7 * m with hN
  set v : ℝ := ((24 / (m : ℚ) : ℚ) : ℝ) with hv
  set t : ℕ → ℚ := fun i => ((86400 * d0 + (i : ℤ) * (g : ℤ) : ℤ) : ℚ) with ht
  have hNpos : 0 < N := by positivity
  have hvpos : 0 < v := by
    rw [hv]
    have h24 : (0 : ℚ) < 24 / (m : ℚ) := by positivity
    exact_mod_cast h24
  have hvne : v ≠ 0 := ne_of_gt hvpos
  have hev : ∀ i : ℕ, sampleEvents cfg (fun _ => 0) (86400 * d0 + (i : ℤ) * (g : ℤ)) [tag]
      = [(tag, t i, v)] := by
    intro i
    rw [sampleEvents_single cfg (fun _ => 0) _ tag rfl rfl rfl]
  have hevs : (List.range N).flatMap (fun i =>
      sampleEvents cfg (fun _ => 0) (86400 * d0 + (i : ℤ) * (g : ℤ)) [tag]) =
      (List.range N).map (fun i => (tag, t i, v)) := by
    rw [List.flatMap_congr (fun i _ => hev i), ← List.map_eq_bind]
  -- the observation table is a single column
  set pts : List (ℚ × ℝ) := (List.range N).map (fun i => (t i, v)) with hpts
  have htbl : toTable ((List.range N).flatMap (fun i =>
      sampleEvents cfg (fun _ => 0) (86400 * d0 + (i : ℤ) * (g : ℤ)) [tag])) =
      [(tag, pts)] := by
    rw [hevs]
    have hne : (List.range N).map (fun i => (tag, t i, v)) ≠ [] := by
      simp [List.map_eq_nil_iff, ← List.length_eq_zero, hNpos.ne.symm]
    obtain ⟨e, rest, hcons⟩ := List.exists_cons_of_ne_nil hne
    have hall : ∀ x ∈ e :: rest, x.1 = tag := by
      rw [← hcons]
      intro x hx
      obtain ⟨i, -, rfl⟩ := List.mem_map.mp hx
      rfl
    rw [hcons, toTable_const_tag tag e rest hall, ← hcons, List.map_map]
    rfl
  set T : Table ℝ := [(tag, pts)] with hT
  rw [htbl]
  -- times of the table
  have htimes : tableTimes T = (List.range N).map t := by
    rw [hT]
    unfold tableTimes
    rw [List.flatMap_cons, List.flatMap_nil, List.append_nil, hpts, List.map_map]
    rfl
  -- t is monotone in i
  have htmono : ∀ i j : ℕ, i ≤ j → t i ≤ t j := by
    intro i j hij
    have hij2 : (i : ℤ) ≤ (j : ℤ) := by exact_mod_cast hij
    have hg0 : (0 : ℤ) ≤ (g : ℤ) := by positivity
    have hzz : (86400 * d0 + (i : ℤ) * (g : ℤ)) ≤ (86400 * d0 + (j : ℤ) * (g : ℤ)) := by
      nlinarith
    show ((86400 * d0 + (i : ℤ) * (g : ℤ) : ℤ) : ℚ) ≤
      ((86400 * d0 + (j : ℤ) * (g : ℤ) : ℤ) : ℚ)
    exact_mod_cast hzz
  have hlastmem : N - 1 ∈ List.range N := List.mem_range.mpr (by omega)
  have h0mem : (0 : ℕ) ∈ List.range N := List.mem_range.mpr hNpos
  have hbounds : ∀ x ∈ tableTimes T, t 0 ≤ x ∧ x ≤ t (N - 1) := by
    intro x hx
    rw [htimes] at hx
    obtain ⟨i, hi, rfl⟩ := List.mem_map.mp hx
    rw [List.mem_range] at hi
    exact ⟨htmono 0 i (Nat.zero_le i), htmono i (N - 1) (by omega)⟩
  have htne : tableTimes T ≠ [] := by
    rw [htimes]
    exact List.ne_nil_of_mem (List.mem_map.mpr ⟨0, h0mem, rfl⟩)
  have hmin : idxMin T = t 0 := by
    have h1 := (idx_bounds T (t 0) (by rw [htimes]; exact List.mem_map.mpr ⟨0, h0mem, rfl⟩)).1
    have h2 := (hbounds (idxMin T) (idxMin_mem T htne)).1
    exact le_antisymm h1 h2
  have hmax : idxMax T = t (N - 1) := by
    have h1 := (idx_bounds T (t (N - 1))
      (by rw [htimes]; exact List.mem_map.mpr ⟨N - 1, hlastmem, rfl⟩)).2
    have h2 := (hbounds (idxMax T) (idxMax_mem T htne)).2
    exact le_antisymm h2 h1
  -- day of each ping
  have hday : ∀ i : ℕ, dayOf (t i) = d0 + ((i / m : ℕ) : ℤ) := by
    intro i
    unfold dayOf
    show ⌊((86400 * d0 + (i : ℤ) * (g : ℤ) : ℤ) : ℚ) / 86400⌋ = d0 + ((i / m : ℕ) : ℤ)
    have hsplit : (((86400 * d0 + (i : ℤ) * (g : ℤ) : ℤ) : ℚ)) / 86400 =
        (d0 : ℚ) + ((i : ℚ) * (g : ℚ)) / 86400 := by
      push_cast
      ring
    rw [hsplit, Int.floor_int_add]
    congr 1
    have hgq : (86400 : ℚ) = (m : ℚ) * (g : ℚ) := by exact_mod_cast hg.symm
    have hgne : ((g : ℚ)) ≠ 0 := by
      have : (0 : ℚ) < (g : ℚ) := by exact_mod_cast hgpos
      exact ne_of_gt this
    rw [hgq, mul_div_mul_right (i : ℚ) (m : ℚ) hgne]
    exact int_floor_nat_div i m hm
  -- per-day column sums: each of the seven days holds m pings of value v
  have hcds : ∀ j : ℕ, (j + 1) * m ≤ N → colDaySum pts (d0 + (j : ℤ)) = (m : ℝ) * v := by
    intro j hj
    unfold colDaySum
    rw [hpts, List.filter_map, List.map_map]
    have hpred : List.filter ((fun p : ℚ × ℝ => decide (dayOf p.1 = d0 + (j : ℤ))) ∘
        (fun i => (t i, v))) (List.range N) =
        List.filter (fun i => decide (i / m = j)) (List.range N) := by
      apply List.filter_congr
      intro i _
      show decide (dayOf (t i) = d0 + (j : ℤ)) = decide (i / m = j)
      rw [decide_eq_decide, hday i]
      constructor
      · intro h
        exact_mod_cast add_left_cancel h
      · intro h
        rw [h]
    rw [hpred]
    have hconst : ((Prod.snd : ℚ × ℝ → ℝ) ∘ fun i => (t i, v)) = Function.const ℕ v := rfl
    rw [hconst, List.map_const, List.sum_replicate, length_filter_range_div m j hm N]
    have hjm1 : min N ((j + 1) * m) = (j + 1) * m := min_eq_right hj
    have hjm2 : min N (j * m) = j * m :=
      min_eq_right (le_trans (Nat.mul_le_mul_right m (Nat.le_succ j)) hj)
    rw [hjm1, hjm2, Nat.succ_mul, Nat.add_sub_cancel_left, nsmul_eq_mul]
  -- the row total is the single column's day sum
  have hdt : ∀ d : ℤ, tblDayTotal T d = colDaySum pts d := by
    intro d
    unfold tblDayTotal
    rw [hT]
    simp
  -- the resampled day range is exactly the seven days d0 .. d0+6
  have hdays : tblDays T = (List.range 7).map (fun i : ℕ => d0 + (i : ℤ)) := by
    unfold tblDays
    rw [hmin, hmax, hday 0, hday (N - 1)]
    have h0 : (0 / m : ℕ) = 0 := Nat.zero_div m
    have h6 : ((N - 1) / m : ℕ) = 6 := by
      apply Nat.div_eq_of_lt_le <;> omega
    rw [h0, h6]
    have harg : (d0 + ((6 : ℕ) : ℤ) - (d0 + ((0 : ℕ) : ℤ))).toNat + 1 = 7 := by
      push_cast
      omega
    rw [harg]
    apply List.map_congr_left
    intro i _
    push_cast
    ring
  -- every day of the range carries total m * v, so every share is 1
  have hshare : ∀ d ∈ validDaysOfWeek T w, colDaySum pts d / tblDayTotal T d = 1 := by
    intro d hd
    have hd2 : d ∈ tblDays T := (List.mem_filter.mp (List.mem_filter.mp hd).1).1
    rw [hdays] at hd2
    obtain ⟨i, hi, rfl⟩ := List.mem_map.mp hd2
    rw [List.mem_range] at hi
    have hcd := hcds i (Nat.mul_le_mul_right m (by omega))
    rw [hdt, hcd]
    exact div_self (ne_of_gt (mul_pos (by exact_mod_cast hm) hvpos))
  -- the weekday bucket w contains at least one valid day
  have hinhab : validDaysOfWeek T w ≠ [] := by
    have hr0 : 0 ≤ (w - 3 - d0) % 7 := Int.emod_nonneg _ (by norm_num)
    have hr7 : (w - 3 - d0) % 7 < 7 := Int.emod_lt_of_pos _ (by norm_num)
    have hmem : (d0 + (w - 3 - d0) % 7) ∈ tblDays T := by
      rw [hdays]
      refine List.mem_map.mpr ⟨((w - 3 - d0) % 7).toNat, List.mem_range.mpr (by omega), ?_⟩
      rw [Int.toNat_of_nonneg hr0]
    have hwd : wdOfDay (d0 + (w - 3 - d0) % 7) = w := by
      unfold wdOfDay
      omega
    have htot : tblDayTotal T (d0 + (w - 3 - d0) % 7) ≠ 0 := by
      have hrn : (d0 + (w - 3 - d0) % 7) = d0 + ((((w - 3 - d0) % 7).toNat : ℕ) : ℤ) := by
        rw [Int.toNat_of_nonneg hr0]
      rw [hdt, hrn, hcds (((w - 3 - d0) % 7).toNat) (Nat.mul_le_mul_right m (by omega))]
      exact ne_of_gt (mul_pos (by exact_mod_cast hm) hvpos)
    have hv1 : (d0 + (w - 3 - d0) % 7) ∈ validDaysOfWeek T w := by
      unfold validDaysOfWeek
      exact List.mem_filter.mpr
        ⟨List.mem_filter.mpr ⟨hmem, decide_eq_true hwd⟩, decide_eq_true htot⟩
    exact List.ne_nil_of_mem hv1
  -- assemble
  have hcol : colOf T tag = pts := by
    unfold colOf
    rw [hT]
    simp
  have hmean : dowShareMean T w pts = 1 := by
    unfold dowShareMean
    apply listMean_ones
    · intro x hx
      obtain ⟨d, hd, rfl⟩ := List.mem_map.mp hx
      exact hshare d hd
    · rw [ne_eq, List.map_eq_nil_iff]
      exact hinhab
  have hrow : dowRowTotal T w = 1 := by
    unfold dowRowTotal
    rw [hT]
    simp only [List.map_cons, List.map_nil, List.sum_cons, List.sum_nil, add_zero]
    rw [← hT]
    exact hmean
  unfold dowHours
  rw [hcol, hmean, hrow]
  norm_num

/-- Witness for `dow_uniform_week`: one ping per day (`m = 1`,
`g = 86400`), interval 24 h, starting at the epoch, weekday bucket 0. -/
theorem dow_uniform_week_witness :
    ((0 : ℕ) < 1 ∧ (1 : ℕ) * 86400 = 86400 ∧ (0 : ℤ) ≤ 0 ∧ (0 : ℤ) < 7) ∧
      dowHours (toTable ((List.range (7 * 1)).flatMap (fun i =>
        sampleEvents (Config.mk (24 / ((1 : ℕ) : ℚ)) .first [] [] false 1) (fun _ => 0)
          (86400 * 0 + (i : ℤ) * ((86400 : ℕ) : ℤ)) ["t"]))) 0 "t" = 24 :=
  ⟨⟨by norm_num, by norm_num, by norm_num, by norm_num⟩,
    dow_uniform_week 0 1 86400 "t" .first 1 (by norm_num) (by norm_num) 0
      (by norm_num) (by norm_num)⟩

end PyTagTime
